import Mathlib

/-!
Verification of the SLA common geometry core (SLACommon.hpp): support-point
equality, raw contour merging, point clustering, and the accelerated-mesh
ray / distance queries.  Pure functions from the header are embedded
directly; functions whose bodies live outside the translated sources
(`cluster`, `query_ray_hit`, `query_ray_hits`, `squared_distance`,
`Contour3D::merge`) are modelled from the specification, as marked in the
corresponding doc comments.  Floating-point scalars are modelled by exact
rationals; quantities that the source obtains through a square root
(normalised normals) are modelled over the reals.
-/

namespace Slic3r

namespace sla

/-- Three-component vector, modelling the Eigen column vectors `Vec3f` /
`Vec3d` used throughout the header. -/
structure Vec3 (α : Type) where
  x : α
  y : α
  z : α
deriving DecidableEq, Repr

instance {α : Type} [Add α] : Add (Vec3 α) :=
  ⟨fun a b => ⟨a.x + b.x, a.y + b.y, a.z + b.z⟩⟩

instance {α : Type} [Sub α] : Sub (Vec3 α) :=
  ⟨fun a b => ⟨a.x - b.x, a.y - b.y, a.z - b.z⟩⟩

instance {α : Type} [Zero α] : Zero (Vec3 α) := ⟨⟨0, 0, 0⟩⟩

instance {α : Type} [Mul α] : SMul α (Vec3 α) :=
  ⟨fun s v => ⟨s * v.x, s * v.y, s * v.z⟩⟩

theorem Vec3.add_def {α : Type} [Add α] (a b : Vec3 α) :
    a + b = ⟨a.x + b.x, a.y + b.y, a.z + b.z⟩ := rfl

theorem Vec3.sub_def {α : Type} [Sub α] (a b : Vec3 α) :
    a - b = ⟨a.x - b.x, a.y - b.y, a.z - b.z⟩ := rfl

theorem Vec3.smul_def {α : Type} [Mul α] (s : α) (v : Vec3 α) :
    s • v = ⟨s * v.x, s * v.y, s * v.z⟩ := rfl

theorem Vec3.zero_def {α : Type} [Zero α] : (0 : Vec3 α) = ⟨0, 0, 0⟩ := rfl

/-- Dot product of two vectors (Eigen `dot`). -/
def dot3 {α : Type} [Mul α] [Add α] (a b : Vec3 α) : α :=
  a.x * b.x + a.y * b.y + a.z * b.z

/-- Cross product of two vectors (Eigen `cross`). -/
def cross3 {α : Type} [Mul α] [Sub α] (a b : Vec3 α) : Vec3 α :=
  ⟨a.y * b.z - a.z * b.y, a.z * b.x - a.x * b.z, a.x * b.y - a.y * b.x⟩

/-- Componentwise map, used to inject rational vectors into real ones. -/
def Vec3.map {α β : Type} (f : α → β) (v : Vec3 α) : Vec3 β :=
  ⟨f v.x, f v.y, f v.z⟩

/-- Injection of a rational vector into the reals. -/
def castV (v : Vec3 ℚ) : Vec3 ℝ :=
  Vec3.map (Rat.cast : ℚ → ℝ) v

/-- Squared Euclidean distance between two points. -/
def sqDist (a b : Vec3 ℚ) : ℚ :=
  dot3 (a - b) (a - b)

theorem sqDist_nonneg (a b : Vec3 ℚ) : 0 ≤ sqDist a b := by
  have h1 := mul_self_nonneg ((a - b).x)
  have h2 := mul_self_nonneg ((a - b).y)
  have h3 := mul_self_nonneg ((a - b).z)
  simpa [sqDist, dot3] using add_nonneg (add_nonneg h1 h2) h3

theorem sqDist_comm (a b : Vec3 ℚ) : sqDist a b = sqDist b a := by
  simp only [sqDist, dot3]
  show (a.x - b.x) * (a.x - b.x) + (a.y - b.y) * (a.y - b.y) +
      (a.z - b.z) * (a.z - b.z) =
    (b.x - a.x) * (b.x - a.x) + (b.y - a.y) * (b.y - a.y) +
      (b.z - a.z) * (b.z - a.z)
  ring

/-- Modelled from the spec: the host-wide `EPSILON` constant referenced by
`SupportPoint::operator==` is defined in `libslic3r.h` (value `1e-4`),
which is not among the translated sources. -/
def EPSILON : ℚ := 1 / 10000

/-- The `SupportPoint` record: single-precision position, head radius and
the new-island flag. -/
structure SupportPoint where
  pos : Vec3 ℚ
  head_front_radius : ℚ
  is_new_island : Bool
deriving DecidableEq, Repr

/-- Embedding of `SupportPoint::operator==`: exact position equality, the
head radii within `EPSILON` of each other, and equal island flags. -/
def SupportPoint.eqOp (a sp : SupportPoint) : Bool :=
  decide (a.pos = sp.pos) &&
    decide (|a.head_front_radius - sp.head_front_radius| < EPSILON) &&
    decide (a.is_new_island = sp.is_new_island)

/-- Embedding of `SupportPoint::operator!=`, which returns the negation of
the flipped equality test. -/
def SupportPoint.neOp (a sp : SupportPoint) : Bool :=
  ! SupportPoint.eqOp sp a

theorem SupportPoint.eqOp_comm (a b : SupportPoint) :
    SupportPoint.eqOp a b = SupportPoint.eqOp b a := by
  simp only [SupportPoint.eqOp, abs_sub_comm, eq_comm]

/-- Raw triangle/quad container `Contour3D`: a point array and two face
lists (triangles and quads, stored as vertex-index tuples). -/
structure Contour3D where
  points : List (Vec3 ℚ)
  faces3 : List (Nat × Nat × Nat)
  faces4 : List (Nat × Nat × Nat × Nat)
deriving DecidableEq, Repr

/-- Modelled from the spec: the body of `Contour3D::merge(const Contour3D&)`
is not among the translated sources.  It appends the other container's
points and appends its faces with every vertex index increased by the
receiver's point count before the merge, returning the mutated receiver. -/
def Contour3D.merge (a ctr : Contour3D) : Contour3D :=
  let s := a.points.length
  { points := a.points ++ ctr.points
    faces3 := a.faces3 ++ ctr.faces3.map (fun f => (f.1 + s, f.2.1 + s, f.2.2 + s))
    faces4 := a.faces4 ++
      ctr.faces4.map (fun f => (f.1 + s, f.2.1 + s, f.2.2.1 + s, f.2.2.2 + s)) }

/-- C9: `SupportPoint::operator==` holds exactly when the positions are
componentwise equal, the island flags agree and the head radii differ by
strictly less than `EPSILON`; `operator!=` is its exact negation. -/
theorem supportPoint_eq_characterisation (a b : SupportPoint) :
    (SupportPoint.eqOp a b = true ↔
      a.pos = b.pos ∧ a.is_new_island = b.is_new_island ∧
        |a.head_front_radius - b.head_front_radius| < EPSILON) ∧
    SupportPoint.neOp a b = ! SupportPoint.eqOp a b := by
  constructor
  · simp only [SupportPoint.eqOp, Bool.and_eq_true, decide_eq_true_eq]
    tauto
  · rw [SupportPoint.neOp, SupportPoint.eqOp_comm]

/-- C8: merging appends the other contour's points, appends its triangle
and quad faces with all indices offset by the pre-merge point count, and
merging a contour with itself doubles the point and face counts. -/
theorem contour3D_merge_spec (A B : Contour3D) :
    (A.merge B).points = A.points ++ B.points ∧
    (A.merge B).faces3 = A.faces3 ++
      B.faces3.map (fun f =>
        (f.1 + A.points.length, f.2.1 + A.points.length, f.2.2 + A.points.length)) ∧
    (A.merge B).faces4 = A.faces4 ++
      B.faces4.map (fun f =>
        (f.1 + A.points.length, f.2.1 + A.points.length,
         f.2.2.1 + A.points.length, f.2.2.2 + A.points.length)) ∧
    (A.merge A).points.length = 2 * A.points.length ∧
    (A.merge A).faces3.length = 2 * A.faces3.length ∧
    (A.merge A).faces4.length = 2 * A.faces4.length := by
  refine ⟨rfl, rfl, rfl, ?_, ?_, ?_⟩ <;>
    simp [Contour3D.merge, List.length_append, List.length_map, two_mul]

/-! ### Clustering

The three `cluster` overloads are declared in the header but implemented
elsewhere, so the algorithm is modelled from the specification: points are
grouped under the single-linkage closure of the closeness predicate, and a
merge whose combined size would exceed the hard `max_points` cap is
rejected with each side keeping its current membership.  The model
processes the input indices in order; each new point gathers the existing
clusters it is close to and merges them pairwise, subject to the cap. -/

/-- Modelled from the spec: one capped merge attempt.  The accumulator
absorbs the candidate cluster only when the combined size stays within the
cap; otherwise the merge is rejected and the candidate keeps its current
membership, set aside unchanged. -/
def mergeStep (cap : Nat) (st : List Nat × List (List Nat)) (c : List Nat) :
    List Nat × List (List Nat) :=
  if st.1.length + c.length ≤ cap then (st.1 ++ c, st.2) else (st.1, st.2 ++ [c])

/-- Modelled from the spec: insertion of one input index.  The clusters
containing a point close to `x` are collected and merged with `x` pairwise
under the cap; untouched clusters are kept as they are. -/
def addPoint (adj : Nat → Nat → Bool) (cap : Nat) (cls : List (List Nat))
    (x : Nat) : List (List Nat) :=
  let t := cls.filter (fun c => c.any (fun y => adj x y))
  let r := cls.filter (fun c => ! c.any (fun y => adj x y))
  let m := t.foldl (mergeStep cap) ([x], [])
  m.1 :: (m.2 ++ r)

/-- Modelled from the spec: the common clustering core, shared by the three
overloads, folding the input indices in their given order. -/
def clusterGen (indices : List Nat) (adj : Nat → Nat → Bool) (cap : Nat) :
    List (List Nat) :=
  indices.foldl (addPoint adj cap) []

/-- Closeness test of the Euclidean-threshold variants: squared distance
strictly below the squared threshold (squared form keeps the model exact;
for a non-negative threshold it agrees with comparing the distance). -/
def closeByDist (pointfn : Nat → Vec3 ℚ) (dist : ℚ) (a b : Nat) : Bool :=
  decide (sqDist (pointfn a) (pointfn b) < dist * dist)

/-- Modelled from the spec: the Euclidean-threshold overload
`cluster(indices, pointfn, dist, max_points)` (Variant A). -/
def cluster (indices : List Nat) (pointfn : Nat → Vec3 ℚ) (dist : ℚ)
    (max_points : Nat) : List (List Nat) :=
  clusterGen indices (closeByDist pointfn dist) max_points

/-- Modelled from the spec: the flat point-array overload
`cluster(points, dist, max_points)` (Variant B), equivalent to Variant A
over all array positions. -/
def clusterPoints (points : List (Vec3 ℚ)) (dist : ℚ) (max_points : Nat) :
    List (List Nat) :=
  cluster (List.range points.length) (fun i => points.getD i 0) dist max_points

/-- Modelled from the spec: the predicate overload
`cluster(indices, pointfn, predicate, max_points)` (Variant C), where the
predicate receives (position, index) pairs. -/
def clusterPred (indices : List Nat) (pointfn : Nat → Vec3 ℚ)
    (predicate : Vec3 ℚ × Nat → Vec3 ℚ × Nat → Bool) (max_points : Nat) :
    List (List Nat) :=
  clusterGen indices (fun a b => predicate (pointfn a, a) (pointfn b, b)) max_points

/-- One step of a closeness chain: both endpoints are input indices and the
closeness predicate holds. -/
def CloseStep (indices : List Nat) (adj : Nat → Nat → Bool) (a b : Nat) : Prop :=
  a ∈ indices ∧ b ∈ indices ∧ adj a b = true

/-- Connection through a chain of input points whose consecutive pairs are
close: the reflexive-transitive closure of `CloseStep`. -/
def Chained (indices : List Nat) (adj : Nat → Nat → Bool) (a b : Nat) : Prop :=
  Relation.ReflTransGen (CloseStep indices adj) a b

/-- Two points lie in a common cluster of the produced partition. -/
def SameCluster (cls : List (List Nat)) (p q : Nat) : Prop :=
  ∃ c ∈ cls, p ∈ c ∧ q ∈ c

theorem mergeStep_fold_fst_le (cap : Nat) :
    ∀ (ts : List (List Nat)) (a : List Nat) (r : List (List Nat)),
      a.length ≤ max cap 1 → ((ts.foldl (mergeStep cap) (a, r)).1).length ≤ max cap 1 := by
  intro ts
  induction ts with
  | nil => intro a r h; exact h
  | cons c ts ih =>
      intro a r h
      simp only [List.foldl_cons, mergeStep]
      by_cases hc : a.length + c.length ≤ cap
      · simp only [hc, if_pos]
        exact ih _ _ (by simp only [List.length_append]; omega)
      · simp only [hc, if_neg, not_false_iff]
        exact ih _ _ h

theorem mergeStep_fold_snd_mem (cap : Nat) :
    ∀ (ts : List (List Nat)) (a : List Nat) (r : List (List Nat)) (c : List Nat),
      c ∈ (ts.foldl (mergeStep cap) (a, r)).2 → c ∈ r ∨ c ∈ ts := by
  intro ts
  induction ts with
  | nil => intro a r c h; exact Or.inl h
  | cons d ts ih =>
      intro a r c h
      simp only [List.foldl_cons, mergeStep] at h
      by_cases hc : a.length + d.length ≤ cap
      · simp only [hc, if_pos] at h
        rcases ih _ _ _ h with h' | h'
        · exact Or.inl h'
        · exact Or.inr (List.mem_cons_of_mem _ h')
      · simp only [hc, if_neg, not_false_iff] at h
        rcases ih _ _ _ h with h' | h'
        · rcases List.mem_append.1 h' with h'' | h''
          · exact Or.inl h''
          · exact Or.inr (List.mem_cons.2 (Or.inl (List.mem_singleton.1 h'')))
        · exact Or.inr (List.mem_cons_of_mem _ h')

theorem addPoint_size_bound (adj : Nat → Nat → Bool) (cap : Nat)
    (cls : List (List Nat)) (x : Nat)
    (h : ∀ c ∈ cls, c.length ≤ max cap 1) :
    ∀ c ∈ addPoint adj cap cls x, c.length ≤ max cap 1 := by
  intro c hc
  simp only [addPoint] at hc
  rcases List.mem_cons.1 hc with hc | hc
  · subst hc
    exact mergeStep_fold_fst_le cap _ [x] [] (by simp)
  · rcases List.mem_append.1 hc with hc | hc
    · rcases mergeStep_fold_snd_mem cap _ [x] [] c hc with h' | h'
      · simp at h'
      · exact h c (List.mem_filter.1 h').1
    · exact h c (List.mem_filter.1 hc).1

theorem clusterGen_size_bound (indices : List Nat) (adj : Nat → Nat → Bool)
    (cap : Nat) : ∀ c ∈ clusterGen indices adj cap, c.length ≤ max cap 1 := by
  suffices h : ∀ (l : List Nat) (cls : List (List Nat)),
      (∀ c ∈ cls, c.length ≤ max cap 1) →
      ∀ c ∈ l.foldl (addPoint adj cap) cls, c.length ≤ max cap 1 by
    exact h indices [] (by simp)
  intro l
  induction l with
  | nil => intro cls hcls; exact hcls
  | cons x l ih =>
      intro cls hcls
      exact ih _ (addPoint_size_bound adj cap cls x hcls)

/-- C2 (amended): in every overload no cluster exceeds
`max max_points 1` — every point forms at least a singleton, so for
`max_points = 0` clusters of one point remain — and a merge whose combined
size would exceed the cap is rejected with each side keeping its current
membership. -/
theorem cluster_size_cap (indices : List Nat) (pointfn : Nat → Vec3 ℚ)
    (dist : ℚ) (points : List (Vec3 ℚ))
    (predicate : Vec3 ℚ × Nat → Vec3 ℚ × Nat → Bool) (max_points : Nat)
    (st : List Nat × List (List Nat)) (c : List Nat) :
    (∀ c' ∈ cluster indices pointfn dist max_points,
        c'.length ≤ max max_points 1) ∧
    (∀ c' ∈ clusterPoints points dist max_points,
        c'.length ≤ max max_points 1) ∧
    (∀ c' ∈ clusterPred indices pointfn predicate max_points,
        c'.length ≤ max max_points 1) ∧
    (max_points < st.1.length + c.length →
        mergeStep max_points st c = (st.1, st.2 ++ [c])) := by
  refine ⟨clusterGen_size_bound _ _ _, clusterGen_size_bound _ _ _,
    clusterGen_size_bound _ _ _, ?_⟩
  intro h
  simp only [mergeStep, if_neg (by omega : ¬ st.1.length + c.length ≤ max_points)]

theorem cluster_size_cap_witness :
    ([0] : List Nat).length ≤ max 1 1 ∧
    mergeStep 1 ([0], []) [0] = ([0], [[0]]) :=
  ⟨(cluster_size_cap [0] (fun _ => 0) 1 [] (fun _ _ => false) 1 ([0], []) [0]).1
      [0] (by decide),
   (cluster_size_cap [0] (fun _ => 0) 1 [] (fun _ _ => false) 1 ([0], []) [0]).2.2.2
      (by decide)⟩

/-- C2, claim as stated is false: with `max_points = 0` the single input
point still forms a cluster of one element, exceeding the cap. -/
theorem cluster_size_cap_cex :
    ∃ c ∈ cluster [0] (fun _ => 0) 1 0, 0 < c.length := by decide

/-- C3: the clustering overloads are deterministic — equal inputs (indices
in the same order, position function, threshold or predicate, cap) give
equal partitions. -/
theorem cluster_deterministic (i₁ i₂ : List Nat) (pf₁ pf₂ : Nat → Vec3 ℚ)
    (d₁ d₂ : ℚ) (pts₁ pts₂ : List (Vec3 ℚ))
    (pr₁ pr₂ : Vec3 ℚ × Nat → Vec3 ℚ × Nat → Bool) (m₁ m₂ : Nat)
    (hi : i₁ = i₂) (hpf : pf₁ = pf₂) (hd : d₁ = d₂) (hpts : pts₁ = pts₂)
    (hpr : pr₁ = pr₂) (hm : m₁ = m₂) :
    cluster i₁ pf₁ d₁ m₁ = cluster i₂ pf₂ d₂ m₂ ∧
    clusterPoints pts₁ d₁ m₁ = clusterPoints pts₂ d₂ m₂ ∧
    clusterPred i₁ pf₁ pr₁ m₁ = clusterPred i₂ pf₂ pr₂ m₂ := by
  subst hi hpf hd hpts hpr hm
  exact ⟨rfl, rfl, rfl⟩

theorem cluster_deterministic_witness :
    cluster [0, 1] (fun _ => 0) 1 2 = cluster [0, 1] (fun _ => 0) 1 2 ∧
    clusterPoints [0] 1 2 = clusterPoints [0] 1 2 ∧
    clusterPred [0, 1] (fun _ => 0) (fun _ _ => true) 2 =
      clusterPred [0, 1] (fun _ => 0) (fun _ _ => true) 2 :=
  cluster_deterministic [0, 1] [0, 1] (fun _ => 0) (fun _ => 0) 1 1 [0] [0]
    (fun _ _ => true) (fun _ _ => true) 2 2 rfl rfl rfl rfl rfl rfl

theorem closeStep_symm (indices : List Nat) (adj : Nat → Nat → Bool)
    (hsym : ∀ a b, adj a b = adj b a) : Symmetric (CloseStep indices adj) := by
  intro a b h
  obtain ⟨ha, hb, hadj⟩ := h
  exact ⟨hb, ha, by rw [hsym b a]; exact hadj⟩

theorem chained_symm (indices : List Nat) (adj : Nat → Nat → Bool)
    (hsym : ∀ a b, adj a b = adj b a) {p q : Nat}
    (h : Chained indices adj p q) : Chained indices adj q p :=
  Relation.ReflTransGen.symmetric (closeStep_symm indices adj hsym) h

theorem chained_mono {S T : List Nat} (adj : Nat → Nat → Bool) (hsub : S ⊆ T)
    {p q : Nat} (h : Chained S adj p q) : Chained T adj p q :=
  Relation.ReflTransGen.mono
    (fun a b hab => ⟨hsub hab.1, hsub hab.2.1, hab.2.2⟩) h

theorem mergeStep_fold_total (cap : Nat) :
    ∀ (ts : List (List Nat)) (a : List Nat) (r : List (List Nat)),
      a.length + ts.flatten.length ≤ cap →
      ts.foldl (mergeStep cap) (a, r) = (a ++ ts.flatten, r) := by
  intro ts
  induction ts with
  | nil => intro a r h; simp
  | cons c ts ih =>
      intro a r h
      simp only [List.flatten_cons, List.length_append] at h
      have hc : a.length + c.length ≤ cap := by omega
      simp only [List.foldl_cons, mergeStep, if_pos hc]
      rw [ih (a ++ c) r (by simp only [List.length_append]; omega)]
      simp [List.append_assoc]

theorem filter_flatten_perm (cls : List (List Nat)) (p : List Nat → Bool) :
    ((cls.filter p).flatten ++ (cls.filter (fun c => ! p c)).flatten).Perm
      cls.flatten := by
  have h := (List.filter_append_perm p cls).flatten
  simpa [List.flatten_append] using h

theorem addPoint_uncapped (adj : Nat → Nat → Bool) (cap : Nat)
    (cls : List (List Nat)) (x : Nat) (h : cls.flatten.length + 1 ≤ cap) :
    addPoint adj cap cls x =
      (x :: (cls.filter (fun c => c.any (fun y => adj x y))).flatten) ::
        cls.filter (fun c => ! c.any (fun y => adj x y)) := by
  have hlen :
      (cls.filter (fun c => c.any (fun y => adj x y))).flatten.length ≤
        cls.flatten.length := by
    have := (filter_flatten_perm cls (fun c => c.any (fun y => adj x y))).length_eq
    simp only [List.length_append] at this
    omega
  simp only [addPoint]
  rw [mergeStep_fold_total cap _ [x] []
    (by simp only [List.length_cons, List.length_nil]; omega)]
  simp

/-- Invariant of the clustering fold over the processed index set `S`: the
clusters are nonempty, their union is exactly `S` without repetition, each
cluster is chain-connected within `S`, and no closeness edge crosses two
distinct clusters. -/
def ClusterInv (adj : Nat → Nat → Bool) (S : List Nat)
    (cls : List (List Nat)) : Prop :=
  (∀ c ∈ cls, c ≠ []) ∧
  cls.flatten.Nodup ∧
  (∀ y, y ∈ cls.flatten ↔ y ∈ S) ∧
  (∀ c ∈ cls, ∀ p ∈ c, ∀ q ∈ c, Chained S adj p q) ∧
  (∀ c₁ ∈ cls, ∀ c₂ ∈ cls, ∀ p ∈ c₁, ∀ q ∈ c₂, adj p q = true → c₁ = c₂)

theorem clusterInv_addPoint (adj : Nat → Nat → Bool)
    (hsym : ∀ a b, adj a b = adj b a) (cap : Nat) (S : List Nat)
    (cls : List (List Nat)) (x : Nat) (hx : x ∉ S)
    (hcap : cls.flatten.length + 1 ≤ cap)
    (hinv : ClusterInv adj S cls) :
    ClusterInv adj (S ++ [x]) (addPoint adj cap cls x) := by
  obtain ⟨hne, hnd, hmem, hconn, hcross⟩ := hinv
  rw [addPoint_uncapped adj cap cls x hcap]
  set t := cls.filter (fun c => c.any (fun y => adj x y)) with ht
  set r := cls.filter (fun c => ! c.any (fun y => adj x y)) with hr
  have hperm : (t.flatten ++ r.flatten).Perm cls.flatten :=
    filter_flatten_perm cls (fun c => c.any (fun y => adj x y))
  have hx' : x ∉ cls.flatten := fun h => hx ((hmem x).1 h)
  have hSsub : S ⊆ S ++ [x] := List.subset_append_left S [x]
  have hxS : x ∈ S ++ [x] := List.mem_append_right S (List.mem_singleton_self x)
  have hflat : ((x :: t.flatten) :: r).flatten = x :: (t.flatten ++ r.flatten) := by
    simp
  have hchx : ∀ y ∈ t.flatten, Chained (S ++ [x]) adj x y := by
    intro y hy
    obtain ⟨c, hct, hyc⟩ := List.mem_flatten.1 hy
    have hcc := List.mem_filter.1 hct
    obtain ⟨z, hzc, hz⟩ := List.any_eq_true.1 hcc.2
    have hzS : z ∈ S := (hmem z).1 (List.mem_flatten.2 ⟨c, hcc.1, hzc⟩)
    have step1 : Chained (S ++ [x]) adj x z :=
      Relation.ReflTransGen.single ⟨hxS, hSsub hzS, hz⟩
    have step2 : Chained (S ++ [x]) adj z y :=
      chained_mono adj hSsub (hconn c hcc.1 z hzc y hyc)
    exact step1.trans step2
  have hNR : ∀ c ∈ r, ∀ p ∈ x :: t.flatten, ∀ q ∈ c, adj p q = true → False := by
    intro c hcr p hp q hq hadj
    have hcrf := List.mem_filter.1 hcr
    have hcany : c.any (fun y => adj x y) = false := by
      simpa using hcrf.2
    rcases List.mem_cons.1 hp with rfl | hp'
    · have : c.any (fun y => adj p y) = true := List.any_eq_true.2 ⟨q, hq, hadj⟩
      rw [hcany] at this
      exact Bool.false_ne_true this
    · obtain ⟨ct, hctt, hpct⟩ := List.mem_flatten.1 hp'
      have hctf := List.mem_filter.1 hctt
      have hcteq : ct = c := hcross ct hctf.1 c hcrf.1 p hpct q hq hadj
      have : c.any (fun y => adj x y) = true := by rw [← hcteq]; exact hctf.2
      rw [hcany] at this
      exact Bool.false_ne_true this
  refine ⟨?_, ?_, ?_, ?_, ?_⟩
  · intro c hc
    rcases List.mem_cons.1 hc with rfl | hc'
    · exact List.cons_ne_nil _ _
    · exact hne c (List.mem_filter.1 hc').1
  · rw [hflat]
    refine List.nodup_cons.2 ⟨fun h => hx' (hperm.mem_iff.1 h), ?_⟩
    exact hperm.nodup_iff.2 hnd
  · intro y
    rw [hflat]
    simp only [List.mem_cons, hperm.mem_iff, hmem y, List.mem_append,
      List.mem_singleton]
    tauto
  · intro c hc p hp q hq
    rcases List.mem_cons.1 hc with rfl | hc'
    · rcases List.mem_cons.1 hp with rfl | hp' <;>
        rcases List.mem_cons.1 hq with hq' | hq'
      · rw [hq']
        exact Relation.ReflTransGen.refl
      · exact hchx q hq'
      · rw [hq']
        exact chained_symm _ adj hsym (hchx p hp')
      · exact (chained_symm _ adj hsym (hchx p hp')).trans (hchx q hq')
    · exact chained_mono adj hSsub
        (hconn c (List.mem_filter.1 hc').1 p hp q hq)
  · intro c₁ hc₁ c₂ hc₂ p hp q hq hadj
    rcases List.mem_cons.1 hc₁ with rfl | hc₁' <;>
      rcases List.mem_cons.1 hc₂ with hc₂' | hc₂'
    · rw [hc₂']
    · exact absurd hadj (fun h => hNR c₂ hc₂' p hp q hq h)
    · rw [hc₂'] at hq
      exact absurd (by rw [hsym q p]; exact hadj)
        (fun h => hNR c₁ hc₁' q hq p hp h)
    · exact hcross c₁ (List.mem_filter.1 hc₁').1 c₂ (List.mem_filter.1 hc₂').1
        p hp q hq hadj

theorem clusterInv_fold (adj : Nat → Nat → Bool)
    (hsym : ∀ a b, adj a b = adj b a) (cap : Nat) :
    ∀ (rest S : List Nat) (cls : List (List Nat)),
      (S ++ rest).Nodup → (S ++ rest).length ≤ cap →
      ClusterInv adj S cls →
      ClusterInv adj (S ++ rest) (rest.foldl (addPoint adj cap) cls) := by
  intro rest
  induction rest with
  | nil => intro S cls hnd hlen hinv; simpa using hinv
  | cons x rest ih =>
      intro S cls hnd hlen hinv
      obtain ⟨hne, hfnd, hmem, hconn, hcross⟩ := hinv
      have hxS : x ∉ S := by
        rcases List.nodup_append.1 hnd with ⟨h1, h2, hdisj⟩
        intro h
        exact hdisj h (List.mem_cons_self x rest)
      have hsub : cls.flatten ⊆ S := fun y hy => (hmem y).1 hy
      have hflen : cls.flatten.length ≤ S.length :=
        (List.subperm_of_subset hfnd hsub).length_le
      have hcap : cls.flatten.length + 1 ≤ cap := by
        have := hlen
        simp only [List.length_append, List.length_cons] at this
        omega
      have hassoc : (S ++ [x]) ++ rest = S ++ x :: rest := by
        rw [List.append_assoc, List.singleton_append]
      have hstep :=
        clusterInv_addPoint adj hsym cap S cls x hxS hcap
          ⟨hne, hfnd, hmem, hconn, hcross⟩
      have hres := ih (S ++ [x]) (addPoint adj cap cls x)
        (by rw [hassoc]; exact hnd) (by rw [hassoc]; exact hlen) hstep
      rw [hassoc] at hres
      simpa using hres

theorem clusterInv_sameCluster (adj : Nat → Nat → Bool) (S : List Nat)
    (cls : List (List Nat)) (hinv : ClusterInv adj S cls) (p q : Nat)
    (hp : p ∈ S) (hq : q ∈ S) :
    SameCluster cls p q ↔ Chained S adj p q := by
  obtain ⟨hne, hnd, hmem, hconn, hcross⟩ := hinv
  constructor
  · rintro ⟨c, hc, hpc, hqc⟩
    exact hconn c hc p hpc q hqc
  · intro h
    obtain ⟨c, hc, hpc⟩ := List.mem_flatten.1 ((hmem p).2 hp)
    suffices hall : ∀ b, Chained S adj p b → b ∈ c by
      exact ⟨c, hc, hpc, hall q h⟩
    intro b hb
    have hb' : Relation.ReflTransGen (CloseStep S adj) p b := hb
    clear hb
    induction hb' with
    | refl => exact hpc
    | tail hab hstep ih =>
        obtain ⟨hmS, hbS, hadj⟩ := hstep
        obtain ⟨c', hc', hbc'⟩ := List.mem_flatten.1 ((hmem _).2 hbS)
        have heq := hcross c hc c' hc' _ ih _ hbc' hadj
        rw [heq]
        exact hbc'

/-- C1: with the cap at least the number of input indices (so that it never
constrains a merge), the Euclidean-threshold variant puts two input points
in one cluster exactly when a chain of input points with pairwise-close
consecutive members connects them. -/
theorem cluster_single_linkage (indices : List Nat)
    (pointfn : Nat → Vec3 ℚ) (dist : ℚ) (max_points : Nat)
    (hnd : indices.Nodup) (hcap : indices.length ≤ max_points) (p q : Nat)
    (hp : p ∈ indices) (hq : q ∈ indices) :
    SameCluster (cluster indices pointfn dist max_points) p q ↔
      Chained indices (closeByDist pointfn dist) p q := by
  have hsym : ∀ a b, closeByDist pointfn dist a b = closeByDist pointfn dist b a := by
    intro a b
    unfold closeByDist
    rw [sqDist_comm]
  have h0 : ClusterInv (closeByDist pointfn dist) [] [] := by
    refine ⟨?_, ?_, ?_, ?_, ?_⟩ <;> simp
  have hinv := clusterInv_fold (closeByDist pointfn dist) hsym max_points
    indices [] [] (by simpa) (by simpa) h0
  simp only [List.nil_append] at hinv
  exact clusterInv_sameCluster (closeByDist pointfn dist) indices _ hinv p q hp hq

theorem cluster_single_linkage_witness :
    SameCluster (cluster [0, 1] (fun i => ⟨(i : ℚ), 0, 0⟩) 2 2) 0 1 ↔
      Chained [0, 1] (closeByDist (fun i => ⟨(i : ℚ), 0, 0⟩) 2) 0 1 :=
  cluster_single_linkage [0, 1] (fun i => ⟨(i : ℚ), 0, 0⟩) 2 2
    (by decide) (by decide) 0 1 (by decide) (by decide)

/-! ### The accelerated mesh and its ray queries

`EigenMesh3D` stores vertex and face arrays.  The inline parts of
`hit_result` are embedded from the header; the bodies of `query_ray_hit`,
`query_ray_hits` and `squared_distance` live outside the translated
sources and are modelled from the specification. -/

/-- The accelerated mesh: vertex array, triangle array and the two
ground-level scalars.  The opaque acceleration index carries no observable
state of its own and is not modelled. -/
structure EigenMesh3D where
  m_V : List (Vec3 ℚ)
  m_F : List (Nat × Nat × Nat)
  m_ground_level : ℚ := 0
  m_gnd_offset : ℚ := 0
deriving DecidableEq, Repr

/-- Effective ground plane: base level plus the adjustable offset. -/
def EigenMesh3D.ground_level (m : EigenMesh3D) : ℚ :=
  m.m_ground_level + m.m_gnd_offset

/-- Vertex triple of face `i` (out-of-range lookups default, matching the
caller obligation that faces reference existing vertices). -/
def EigenMesh3D.faceVerts (m : EigenMesh3D) (i : Nat) : Vec3 ℚ × Vec3 ℚ × Vec3 ℚ :=
  let f := m.m_F.getD i (0, 0, 0)
  (m.m_V.getD f.1 0, m.m_V.getD f.2.1 0, m.m_V.getD f.2.2 0)

/-- Result of a raycast, embedding `EigenMesh3D::hit_result`: `m_t` models
the `double` distance with `none` for the NaN default, `m_face_id`
defaults to the sentinel `-1`, and `m_mesh` models the mesh pointer with
`none` for null. -/
structure EigenMesh3D.hit_result where
  m_t : Option ℚ := none
  m_face_id : Int := -1
  m_mesh : Option EigenMesh3D := none
  m_dir : Vec3 ℚ := 0
  m_source : Vec3 ℚ := 0
deriving DecidableEq, Repr

/-- Embedding of the public placeholder constructor `hit_result(double)`:
only the distance is preset; the face index stays `-1` and the mesh
pointer stays null. -/
def EigenMesh3D.hit_result.placeholder (val : Option ℚ) : EigenMesh3D.hit_result :=
  { m_t := val, m_face_id := -1, m_mesh := none, m_dir := 0, m_source := 0 }

/-- Embedding of `hit_result::distance`. -/
def EigenMesh3D.hit_result.distance (h : EigenMesh3D.hit_result) : Option ℚ :=
  h.m_t

/-- Embedding of `hit_result::direction`. -/
def EigenMesh3D.hit_result.direction (h : EigenMesh3D.hit_result) : Vec3 ℚ :=
  h.m_dir

/-- Embedding of `hit_result::position` (`m_source + m_dir * m_t`), defined
when a finite distance is present. -/
def EigenMesh3D.hit_result.position (h : EigenMesh3D.hit_result) : Option (Vec3 ℚ) :=
  h.m_t.map (fun t => h.m_source + t • h.m_dir)

/-- Embedding of `hit_result::face`. -/
def EigenMesh3D.hit_result.face (h : EigenMesh3D.hit_result) : Int :=
  h.m_face_id

/-- Embedding of `hit_result::is_valid` (`m_mesh != nullptr`). -/
def EigenMesh3D.hit_result.is_valid (h : EigenMesh3D.hit_result) : Bool :=
  h.m_mesh.isSome

/-- Modelled from the spec: hit existence means a non-negative face
index (the sentinel `-1` marks a miss). -/
def EigenMesh3D.hit_result.hitExists (h : EigenMesh3D.hit_result) : Bool :=
  decide (0 ≤ h.m_face_id)

/-- Unnormalised face normal of `hit_result::normal`: the cross product
`U × V` of the two edge vectors of the hit face, zero when the face index
is negative or the result is invalid (the source returns a
default-constructed vector there). -/
def EigenMesh3D.hit_result.normalRaw (h : EigenMesh3D.hit_result) : Vec3 ℚ :=
  match h.m_mesh with
  | none => 0
  | some m =>
      if h.m_face_id < 0 then 0
      else
        let v := m.faceVerts h.m_face_id.toNat
        cross3 (v.2.1 - v.1) (v.2.2 - v.1)

/-- Normalisation of a real vector, as Eigen's `normalized()`; the zero
vector stays zero. -/
noncomputable def normalize3 (v : Vec3 ℝ) : Vec3 ℝ :=
  (Real.sqrt (dot3 v v))⁻¹ • v

/-- Embedding of `hit_result::normal`: the normalised cross product of the
two edge vectors of the hit face (over the reals, as the source computes a
square root). -/
noncomputable def EigenMesh3D.hit_result.normal (h : EigenMesh3D.hit_result) : Vec3 ℝ :=
  normalize3 (castV h.normalRaw)

/-- Embedding of `hit_result::is_inside`
(`m_face_id >= 0 && normal().dot(m_dir) > 0`).  The executable form tests
the sign of the dot product against the unnormalised cross product, which
agrees with the source's normalised test over exact arithmetic; the
agreement is proved in `hit_is_inside_normal`. -/
def EigenMesh3D.hit_result.is_inside (h : EigenMesh3D.hit_result) : Bool :=
  decide (0 ≤ h.m_face_id) && decide (0 < dot3 h.normalRaw h.m_dir)

/-- Ray-triangle intersection parameter (Moeller-Trumbore over exact
rationals): the distance `t` along `dir` when the ray from `s` meets the
triangle `a b c`, `none` otherwise. -/
def rayTri (s dir a b c : Vec3 ℚ) : Option ℚ :=
  let e1 := b - a
  let e2 := c - a
  let pv := cross3 dir e2
  let det := dot3 e1 pv
  if det = 0 then none
  else
    let tv := s - a
    let u := dot3 tv pv / det
    let qv := cross3 tv e1
    let v := dot3 dir qv / det
    let t := dot3 e2 qv / det
    if 0 ≤ u ∧ 0 ≤ v ∧ u + v ≤ 1 ∧ 0 ≤ t then some t else none

/-- All intersections of a ray with the mesh, as (distance, face index)
pairs in face order. -/
def rayCandidates (m : EigenMesh3D) (s dir : Vec3 ℚ) : List (ℚ × Nat) :=
  (List.range m.m_F.length).filterMap (fun i =>
    let v := m.faceVerts i
    (rayTri s dir v.1 v.2.1 v.2.2).map (fun t => (t, i)))

/-- Closest candidate by distance (earliest face wins ties). -/
def minCand : List (ℚ × Nat) → Option (ℚ × Nat)
  | [] => none
  | c :: cs =>
      match minCand cs with
      | none => some c
      | some m => some (if m.1 < c.1 then m else c)

/-- Insertion into a distance-sorted candidate list. -/
def insertCand (c : ℚ × Nat) : List (ℚ × Nat) → List (ℚ × Nat)
  | [] => [c]
  | d :: ds => if c.1 ≤ d.1 then c :: d :: ds else d :: insertCand c ds

/-- Stable insertion sort of candidates by increasing distance. -/
def sortCand : List (ℚ × Nat) → List (ℚ × Nat)
  | [] => []
  | c :: cs => insertCand c (sortCand cs)

/-- Hit record attached to the query: distance, face, mesh, ray. -/
def EigenMesh3D.mkHit (m : EigenMesh3D) (s dir : Vec3 ℚ) (c : ℚ × Nat) :
    EigenMesh3D.hit_result :=
  { m_t := some c.1, m_face_id := (c.2 : Int), m_mesh := some m,
    m_dir := dir, m_source := s }

/-- Modelled from the spec: `EigenMesh3D::query_ray_hit` (implemented in
`SLASupportTreeIGL.cpp`, outside the translated sources) returns the
closest hit along the ray; when no triangle is intersected it returns a
no-hit result with the sentinel face index `-1` and no finite distance. -/
def EigenMesh3D.query_ray_hit (m : EigenMesh3D) (s dir : Vec3 ℚ) :
    EigenMesh3D.hit_result :=
  match minCand (rayCandidates m s dir) with
  | none => { m_t := none, m_face_id := -1, m_mesh := some m,
              m_dir := dir, m_source := s }
  | some c => m.mkHit s dir c

/-- Modelled from the spec: `EigenMesh3D::query_ray_hits` returns all
intersections along the ray ordered by increasing distance, empty when
there are none. -/
def EigenMesh3D.query_ray_hits (m : EigenMesh3D) (s dir : Vec3 ℚ) :
    List EigenMesh3D.hit_result :=
  (sortCand (rayCandidates m s dir)).map (m.mkHit s dir)

/-- Distance comparison between two hit records carrying finite
distances. -/
def hitLE (a b : EigenMesh3D.hit_result) : Prop :=
  match a.m_t, b.m_t with
  | some x, some y => x ≤ y
  | _, _ => False

theorem mem_insertCand (c x : ℚ × Nat) :
    ∀ l : List (ℚ × Nat), x ∈ insertCand c l ↔ x = c ∨ x ∈ l := by
  intro l
  induction l with
  | nil => simp [insertCand]
  | cons d ds ih =>
      simp only [insertCand]
      by_cases h : c.1 ≤ d.1
      · simp [h, List.mem_cons]
      · simp only [h, if_neg, not_false_iff, List.mem_cons, ih]
        tauto

theorem insertCand_pairwise (c : ℚ × Nat) :
    ∀ l : List (ℚ × Nat),
      l.Pairwise (fun a b => a.1 ≤ b.1) →
      (insertCand c l).Pairwise (fun a b => a.1 ≤ b.1) := by
  intro l
  induction l with
  | nil => intro h; simp [insertCand]
  | cons d ds ih =>
      intro h
      obtain ⟨hd, hds⟩ := List.pairwise_cons.1 h
      simp only [insertCand]
      by_cases hc : c.1 ≤ d.1
      · simp only [hc, if_pos]
        refine List.pairwise_cons.2 ⟨?_, h⟩
        intro e he
        rcases List.mem_cons.1 he with rfl | he'
        · exact hc
        · exact le_trans hc (hd e he')
      · simp only [hc, if_neg, not_false_iff]
        refine List.pairwise_cons.2 ⟨?_, ih hds⟩
        intro e he
        rcases (mem_insertCand c e ds).1 he with rfl | he'
        · exact le_of_lt (lt_of_not_le hc)
        · exact hd e he'

theorem sortCand_pairwise :
    ∀ l : List (ℚ × Nat), (sortCand l).Pairwise (fun a b => a.1 ≤ b.1) := by
  intro l
  induction l with
  | nil => simp [sortCand]
  | cons c cs ih => exact insertCand_pairwise c (sortCand cs) ih

theorem minCand_eq_sortCand_head :
    ∀ l : List (ℚ × Nat), minCand l = (sortCand l).head? := by
  intro l
  induction l with
  | nil => rfl
  | cons c cs ih =>
      simp only [minCand, sortCand, ih]
      cases hs : sortCand cs with
      | nil => simp [insertCand]
      | cons d ds =>
          simp only [List.head?_cons, insertCand]
          by_cases h : c.1 ≤ d.1
          · have hd : ¬ d.1 < c.1 := not_lt.2 h
            simp [h, hd]
          · have hd : d.1 < c.1 := lt_of_not_le h
            simp [h, hd]

/-- Single-triangle example mesh used by the concrete instantiations. -/
def demoMesh : EigenMesh3D :=
  { m_V := [⟨0, 0, 0⟩, ⟨4, 0, 0⟩, ⟨0, 4, 0⟩], m_F := [(0, 1, 2)] }

/-- C4: the full-hit query is sorted by increasing distance, is empty when
no triangle is intersected, and its first element (when any) equals the
single-hit query's result. -/
theorem query_ray_hits_sorted_consistent (m : EigenMesh3D) (s dir : Vec3 ℚ) :
    (m.query_ray_hits s dir).Pairwise hitLE ∧
    (rayCandidates m s dir = [] → m.query_ray_hits s dir = []) ∧
    (m.query_ray_hits s dir ≠ [] →
      (m.query_ray_hits s dir).head? = some (m.query_ray_hit s dir)) := by
  refine ⟨?_, ?_, ?_⟩
  · simp only [EigenMesh3D.query_ray_hits]
    rw [List.pairwise_map]
    refine (sortCand_pairwise _).imp ?_
    intro a b hab
    exact hab
  · intro h
    simp [EigenMesh3D.query_ray_hits, h, sortCand]
  · intro hne
    simp only [EigenMesh3D.query_ray_hits] at hne ⊢
    simp only [EigenMesh3D.query_ray_hit, minCand_eq_sortCand_head]
    cases hs : sortCand (rayCandidates m s dir) with
    | nil => rw [hs] at hne; simp at hne
    | cons c cs => simp [hs]

theorem query_ray_hits_sorted_consistent_witness :
    (demoMesh.query_ray_hits ⟨1, 1, 1⟩ ⟨0, 0, -1⟩).head? =
      some (demoMesh.query_ray_hit ⟨1, 1, 1⟩ ⟨0, 0, -1⟩) :=
  (query_ray_hits_sorted_consistent demoMesh ⟨1, 1, 1⟩ ⟨0, 0, -1⟩).2.2
    (by norm_num [EigenMesh3D.query_ray_hits, sortCand, insertCand, rayCandidates,
      demoMesh, EigenMesh3D.faceVerts, rayTri, cross3, dot3, Vec3.sub_def,
      List.range_succ, List.range_zero, List.filterMap_cons, List.filterMap_nil,
      List.getD])

/-- C5: a ray intersecting no triangle yields a normal no-hit result: the
sentinel face index `-1` (hit existence false) and no finite distance. -/
theorem query_ray_hit_miss (m : EigenMesh3D) (s dir : Vec3 ℚ)
    (hmiss : rayCandidates m s dir = []) :
    (m.query_ray_hit s dir).m_face_id < 0 ∧
    (m.query_ray_hit s dir).hitExists = false ∧
    (m.query_ray_hit s dir).distance = none := by
  simp [EigenMesh3D.query_ray_hit, hmiss, minCand,
    EigenMesh3D.hit_result.hitExists, EigenMesh3D.hit_result.distance]

theorem query_ray_hit_miss_witness :
    (demoMesh.query_ray_hit ⟨10, 10, 10⟩ ⟨0, 0, 1⟩).m_face_id < 0 ∧
    (demoMesh.query_ray_hit ⟨10, 10, 10⟩ ⟨0, 0, 1⟩).hitExists = false ∧
    (demoMesh.query_ray_hit ⟨10, 10, 10⟩ ⟨0, 0, 1⟩).distance = none :=
  query_ray_hit_miss demoMesh ⟨10, 10, 10⟩ ⟨0, 0, 1⟩
    (by norm_num [rayCandidates, demoMesh, EigenMesh3D.faceVerts, rayTri,
      cross3, dot3, Vec3.sub_def, List.range_succ, List.range_zero,
      List.filterMap_cons, List.filterMap_nil, List.getD])

/-- C10: a caller-constructed placeholder is invalid, carries the sentinel
face `-1` and the supplied distance; and any result with a negative face
index is never classified as inside, whatever its mesh field holds. -/
theorem hit_result_placeholder_invalid :
    (∀ val : Option ℚ,
      (EigenMesh3D.hit_result.placeholder val).is_valid = false ∧
      (EigenMesh3D.hit_result.placeholder val).face = -1 ∧
      (EigenMesh3D.hit_result.placeholder val).distance = val) ∧
    (∀ h : EigenMesh3D.hit_result, h.m_face_id < 0 → h.is_inside = false) := by
  constructor
  · intro val
    exact ⟨rfl, rfl, rfl⟩
  · intro h hneg
    simp only [EigenMesh3D.hit_result.is_inside]
    rw [decide_eq_false (not_le.2 hneg), Bool.false_and]

theorem hit_result_placeholder_invalid_witness :
    ((EigenMesh3D.hit_result.placeholder (some 5)).is_valid = false ∧
      (EigenMesh3D.hit_result.placeholder (some 5)).face = -1 ∧
      (EigenMesh3D.hit_result.placeholder (some 5)).distance = some 5) ∧
    (EigenMesh3D.hit_result.placeholder (some 5)).is_inside = false :=
  ⟨hit_result_placeholder_invalid.1 (some 5),
   hit_result_placeholder_invalid.2 (EigenMesh3D.hit_result.placeholder (some 5))
     (by decide)⟩

theorem dot3_smul (c : ℝ) (v w : Vec3 ℝ) : dot3 (c • v) w = c * dot3 v w := by
  simp only [dot3, Vec3.smul_def]
  ring

theorem dot3_castV (a b : Vec3 ℚ) :
    dot3 (castV a) (castV b) = ((dot3 a b : ℚ) : ℝ) := by
  simp only [castV, Vec3.map, dot3]
  push_cast
  ring

theorem dot3_self_pos (v : Vec3 ℚ) (hv : v ≠ 0) : 0 < dot3 v v := by
  have h : v.x ≠ 0 ∨ v.y ≠ 0 ∨ v.z ≠ 0 := by
    by_contra hc
    push_neg at hc
    apply hv
    obtain ⟨x, y, z⟩ := v
    simp only at hc
    simp [Vec3.zero_def, hc.1, hc.2.1, hc.2.2]
  simp only [dot3]
  rcases h with h | h | h <;>
    nlinarith [mul_self_nonneg v.x, mul_self_nonneg v.y, mul_self_nonneg v.z,
      mul_self_pos.2 h]

theorem dot_normalize_pos_iff (v w : Vec3 ℚ) :
    (0 < dot3 (normalize3 (castV v)) (castV w)) ↔ 0 < dot3 v w := by
  by_cases hv : v = 0
  · subst hv
    simp [normalize3, castV, Vec3.map, Vec3.zero_def, dot3, Vec3.smul_def]
  · have hpos : 0 < dot3 v v := dot3_self_pos v hv
    simp only [normalize3, dot3_smul, dot3_castV]
    have hr : (0 : ℝ) < ((dot3 v v : ℚ) : ℝ) := by exact_mod_cast hpos
    have hinv : 0 < (Real.sqrt ((dot3 v v : ℚ) : ℝ))⁻¹ :=
      inv_pos.2 (Real.sqrt_pos.2 hr)
    constructor
    · intro h
      have h2 : (0 : ℝ) < ((dot3 v w : ℚ) : ℝ) := by nlinarith
      exact_mod_cast h2
    · intro h
      have h2 : (0 : ℝ) < ((dot3 v w : ℚ) : ℝ) := by exact_mod_cast h
      exact mul_pos hinv h2

/-- C7: for a hit carrying a valid face on a valid mesh, `is_inside` holds
exactly when the dot product of the face's normal — the normalised cross
product of its two edge vectors — with the ray direction is strictly
positive. -/
theorem hit_is_inside_normal (h : EigenMesh3D.hit_result) (m : EigenMesh3D)
    (hmesh : h.m_mesh = some m) (hface : 0 ≤ h.m_face_id) :
    h.is_inside = true ↔ 0 < dot3 h.normal (castV h.m_dir) := by
  rw [show h.normal = normalize3 (castV h.normalRaw) from rfl,
    dot_normalize_pos_iff]
  simp [EigenMesh3D.hit_result.is_inside, hface]

/-- Hit record on the example mesh used for the concrete instantiation. -/
def demoHit : EigenMesh3D.hit_result :=
  { m_t := some 1, m_face_id := 0, m_mesh := some demoMesh,
    m_dir := ⟨0, 0, -1⟩, m_source := ⟨1, 1, 1⟩ }

theorem hit_is_inside_normal_witness :
    demoHit.is_inside = true ↔ 0 < dot3 demoHit.normal (castV demoHit.m_dir) :=
  hit_is_inside_normal demoHit demoMesh rfl (by decide)

/-! ### Nearest-point query

`EigenMesh3D::squared_distance` is implemented outside the translated
sources; modelled from the spec, it returns the squared Euclidean distance
from the query point to the mesh together with the closest face index and
the closest point, scanning the faces and taking, on each face, the best
of the vertex, clamped-edge and interior projections. -/

/-- Clamp of a parameter to the unit interval. -/
def clamp01 (t : ℚ) : ℚ :=
  if t < 0 then 0 else if 1 < t then 1 else t

theorem clamp01_bounds (t : ℚ) : 0 ≤ clamp01 t ∧ clamp01 t ≤ 1 := by
  unfold clamp01
  split_ifs with h1 h2
  · exact ⟨le_refl 0, by norm_num⟩
  · exact ⟨by norm_num, le_refl 1⟩
  · exact ⟨not_lt.1 h1, not_lt.1 h2⟩

/-- Parameter of the projection of `p` onto the segment `u v`, clamped to
the segment. -/
def edgeParam (p u v : Vec3 ℚ) : ℚ :=
  clamp01 (dot3 (p - u) (v - u) / dot3 (v - u) (v - u))

theorem edgeParam_bounds (p u v : Vec3 ℚ) :
    0 ≤ edgeParam p u v ∧ edgeParam p u v ≤ 1 :=
  clamp01_bounds _

/-- First barycentric coordinate of the in-plane projection of `p`. -/
def baryU (p a b c : Vec3 ℚ) : ℚ :=
  (dot3 (c - a) (c - a) * dot3 (p - a) (b - a) -
      dot3 (b - a) (c - a) * dot3 (p - a) (c - a)) /
    (dot3 (b - a) (b - a) * dot3 (c - a) (c - a) -
      dot3 (b - a) (c - a) * dot3 (b - a) (c - a))

/-- Second barycentric coordinate of the in-plane projection of `p`. -/
def baryV (p a b c : Vec3 ℚ) : ℚ :=
  (dot3 (b - a) (b - a) * dot3 (p - a) (c - a) -
      dot3 (b - a) (c - a) * dot3 (p - a) (b - a)) /
    (dot3 (b - a) (b - a) * dot3 (c - a) (c - a) -
      dot3 (b - a) (c - a) * dot3 (b - a) (c - a))

/-- The in-plane projection, included as a candidate only when it falls
inside the triangle. -/
def interiorCandidate (p a b c : Vec3 ℚ) : List (Vec3 ℚ) :=
  if 0 ≤ baryU p a b c ∧ 0 ≤ baryV p a b c ∧ baryU p a b c + baryV p a b c ≤ 1
  then [a + baryU p a b c • (b - a) + baryV p a b c • (c - a)]
  else []

/-- Candidate closest points on the triangle `a b c`: the vertices, the
clamped projections onto the three edges, and the in-plane projection when
it lies inside. -/
def triCandidates (p a b c : Vec3 ℚ) : List (Vec3 ℚ) :=
  [a, b, c,
   a + edgeParam p a b • (b - a),
   b + edgeParam p b c • (c - b),
   a + edgeParam p a c • (c - a)] ++ interiorCandidate p a b c

/-- Closest candidate point on the triangle to `p`. -/
def closestOnTri (p a b c : Vec3 ℚ) : Vec3 ℚ :=
  (triCandidates p a b c).foldl
    (fun best q => if sqDist p q < sqDist p best then q else best) a

/-- Membership in the closed triangle `a b c`: a convex combination of the
two edge vectors. -/
def InTriangle (pt a b c : Vec3 ℚ) : Prop :=
  ∃ u v : ℚ, 0 ≤ u ∧ 0 ≤ v ∧ u + v ≤ 1 ∧ pt = a + u • (b - a) + v • (c - a)

/-- Modelled from the spec: `EigenMesh3D::squared_distance(p, i, c)`
(implemented outside the translated sources) returns the squared distance
together with the closest face index and closest point, encoded here as
the result triple. -/
def EigenMesh3D.squared_distance (m : EigenMesh3D) (p : Vec3 ℚ) :
    ℚ × Nat × Vec3 ℚ :=
  match (List.range m.m_F.length).map (fun i =>
      let v := m.faceVerts i
      let cp := closestOnTri p v.1 v.2.1 v.2.2
      (sqDist p cp, i, cp)) with
  | [] => (0, 0, p)
  | c :: cs => cs.foldl (fun best d => if d.1 < best.1 then d else best) c

theorem Vec3.ext3 {α : Type} {u v : Vec3 α} (hx : u.x = v.x)
    (hy : u.y = v.y) (hz : u.z = v.z) : u = v := by
  cases u
  cases v
  simp only at hx hy hz
  rw [hx, hy, hz]

theorem foldl_pick_mem {α : Type} (f : α → ℚ) :
    ∀ (l : List α) (b : α),
      l.foldl (fun best d => if f d < f best then d else best) b = b ∨
        l.foldl (fun best d => if f d < f best then d else best) b ∈ l := by
  intro l
  induction l with
  | nil => intro b; exact Or.inl rfl
  | cons d l ih =>
      intro b
      simp only [List.foldl_cons]
      rcases ih (if f d < f b then d else b) with h | h
      · by_cases hc : f d < f b
        · right
          rw [h, if_pos hc]
          exact List.mem_cons_self d l
        · left
          rw [h, if_neg hc]
      · right
        exact List.mem_cons_of_mem d h

theorem closestOnTri_mem (p a b c : Vec3 ℚ) :
    closestOnTri p a b c ∈ triCandidates p a b c := by
  rcases foldl_pick_mem (sqDist p) (triCandidates p a b c) a with h | h
  · have h2 : closestOnTri p a b c = a := h
    rw [h2]
    simp [triCandidates]
  · exact h

theorem triCandidates_inTriangle (p a b c : Vec3 ℚ) :
    ∀ q ∈ triCandidates p a b c, InTriangle q a b c := by
  intro q hq
  simp only [triCandidates, List.mem_append, List.mem_cons,
    List.not_mem_nil, or_false] at hq
  rcases hq with (hq | hq | hq | hq | hq | hq) | hq
  · exact ⟨0, 0, le_refl 0, le_refl 0, by norm_num, by
      rw [hq]
      refine Vec3.ext3 ?_ ?_ ?_ <;>
        simp only [Vec3.add_def, Vec3.sub_def, Vec3.smul_def] <;> ring⟩
  · exact ⟨1, 0, by norm_num, le_refl 0, by norm_num, by
      rw [hq]
      refine Vec3.ext3 ?_ ?_ ?_ <;>
        simp only [Vec3.add_def, Vec3.sub_def, Vec3.smul_def] <;> ring⟩
  · exact ⟨0, 1, le_refl 0, by norm_num, by norm_num, by
      rw [hq]
      refine Vec3.ext3 ?_ ?_ ?_ <;>
        simp only [Vec3.add_def, Vec3.sub_def, Vec3.smul_def] <;> ring⟩
  · exact ⟨edgeParam p a b, 0, (edgeParam_bounds p a b).1, le_refl 0, by
      have := (edgeParam_bounds p a b).2
      linarith, by
      rw [hq]
      refine Vec3.ext3 ?_ ?_ ?_ <;>
        simp only [Vec3.add_def, Vec3.sub_def, Vec3.smul_def] <;> ring⟩
  · refine ⟨1 - edgeParam p b c, edgeParam p b c, ?_, (edgeParam_bounds p b c).1,
      by linarith, ?_⟩
    · have := (edgeParam_bounds p b c).2
      linarith
    · rw [hq]
      refine Vec3.ext3 ?_ ?_ ?_ <;>
        simp only [Vec3.add_def, Vec3.sub_def, Vec3.smul_def] <;> ring
  · exact ⟨0, edgeParam p a c, le_refl 0, (edgeParam_bounds p a c).1, by
      have := (edgeParam_bounds p a c).2
      linarith, by
      rw [hq]
      refine Vec3.ext3 ?_ ?_ ?_ <;>
        simp only [Vec3.add_def, Vec3.sub_def, Vec3.smul_def] <;> ring⟩
  · rw [interiorCandidate] at hq
    by_cases hg : 0 ≤ baryU p a b c ∧ 0 ≤ baryV p a b c ∧
        baryU p a b c + baryV p a b c ≤ 1
    · rw [if_pos hg] at hq
      rw [List.mem_singleton] at hq
      exact ⟨baryU p a b c, baryV p a b c, hg.1, hg.2.1, hg.2.2, hq⟩
    · rw [if_neg hg] at hq
      simp at hq

/-- C6: for a mesh with at least one face, the nearest-point query returns
a non-negative value equal to the squared norm of `p - c`, with the output
closest point `c` lying on the face with the output index `i`. -/
theorem squared_distance_spec (m : EigenMesh3D) (p : Vec3 ℚ)
    (hm : m.m_F ≠ []) :
    0 ≤ (m.squared_distance p).1 ∧
    (m.squared_distance p).1 = sqDist p (m.squared_distance p).2.2 ∧
    (m.squared_distance p).2.1 < m.m_F.length ∧
    InTriangle (m.squared_distance p).2.2
      (m.faceVerts (m.squared_distance p).2.1).1
      (m.faceVerts (m.squared_distance p).2.1).2.1
      (m.faceVerts (m.squared_distance p).2.1).2.2 := by
  rcases hM : (List.range m.m_F.length).map (fun i =>
      let v := m.faceVerts i
      let cp := closestOnTri p v.1 v.2.1 v.2.2
      (sqDist p cp, i, cp)) with _ | ⟨c, cs⟩
  · exfalso
    have : m.m_F.length = 0 := by
      have h := congrArg List.length hM
      simpa using h
    exact hm (List.length_eq_zero.1 this)
  · have hres : m.squared_distance p =
        cs.foldl (fun best d => if d.1 < best.1 then d else best) c := by
      unfold EigenMesh3D.squared_distance
      rw [hM]
    have hmem : m.squared_distance p ∈ c :: cs := by
      rw [hres]
      rcases foldl_pick_mem (fun t : ℚ × Nat × Vec3 ℚ => t.1) cs c with h | h
      · rw [h]
        exact List.mem_cons_self c cs
      · exact List.mem_cons_of_mem c h
    have hall : ∀ t ∈ c :: cs,
        t.1 = sqDist p t.2.2 ∧ t.2.1 < m.m_F.length ∧
          InTriangle t.2.2 (m.faceVerts t.2.1).1 (m.faceVerts t.2.1).2.1
            (m.faceVerts t.2.1).2.2 := by
      rw [← hM]
      intro t ht
      obtain ⟨i, hi, hti⟩ := List.mem_map.1 ht
      subst hti
      refine ⟨rfl, List.mem_range.1 hi, ?_⟩
      exact triCandidates_inTriangle p _ _ _ _ (closestOnTri_mem p _ _ _)
    obtain ⟨h1, h2, h3⟩ := hall _ hmem
    exact ⟨by rw [h1]; exact sqDist_nonneg _ _, h1, h2, h3⟩

theorem squared_distance_spec_witness :
    0 ≤ (demoMesh.squared_distance ⟨1, 1, 1⟩).1 ∧
    (demoMesh.squared_distance ⟨1, 1, 1⟩).1 =
      sqDist ⟨1, 1, 1⟩ (demoMesh.squared_distance ⟨1, 1, 1⟩).2.2 ∧
    (demoMesh.squared_distance ⟨1, 1, 1⟩).2.1 < demoMesh.m_F.length ∧
    InTriangle (demoMesh.squared_distance ⟨1, 1, 1⟩).2.2
      (demoMesh.faceVerts (demoMesh.squared_distance ⟨1, 1, 1⟩).2.1).1
      (demoMesh.faceVerts (demoMesh.squared_distance ⟨1, 1, 1⟩).2.1).2.1
      (demoMesh.faceVerts (demoMesh.squared_distance ⟨1, 1, 1⟩).2.1).2.2 :=
  squared_distance_spec demoMesh ⟨1, 1, 1⟩ (by decide)

end sla

end Slic3r
